import Mathlib

/-!
Shallow embedding of the restaurant-intelligence-platform feedback pipeline
(src/review-insights/src/review_analyzer.py, src/review-insights/src/business_insights.py)
and the tabular feature pruning step (src/demand-forecasting/src/functions.py).

Strings are modelled as lists of characters; the Python string operations used
by the source (strip, split, lower, substring search, and the three regexes
appearing in the code) are embedded with their Python semantics over ASCII text.
-/

namespace Resto

/-- Python whitespace characters (ASCII part of the str.strip / regex space class). -/
def isPySpace (c : Char) : Bool :=
  c = ' ' || c = '\t' || c = '\n' || c = '\r' || c = '\x0b' || c = '\x0c'

/-- ASCII decimal digit test, the semantics of the regex class in the source patterns. -/
def isDigitChar (c : Char) : Bool :=
  '0' ≤ c && c ≤ '9'

/-- ASCII lower-casing of one character, the semantics of str.lower on the source text. -/
def lowerChar (c : Char) : Char :=
  if 'A' ≤ c && c ≤ 'Z' then Char.ofNat (c.toNat + 32) else c

/-- str.lower over a whole string. -/
def lowerStr (s : List Char) : List Char :=
  s.map lowerChar

/-- Left part of str.strip. -/
def stripLeft (s : List Char) : List Char :=
  s.dropWhile isPySpace

/-- Right part of str.strip. -/
def stripRight (s : List Char) : List Char :=
  (s.reverse.dropWhile isPySpace).reverse

/-- Python str.strip. -/
def pyStrip (s : List Char) : List Char :=
  stripRight (stripLeft s)

/-- Python str.split on a newline: every newline is a separator, empty pieces kept. -/
def splitNl : List Char → List (List Char)
  | [] => [[]]
  | c :: rest =>
    if c = '\n' then [] :: splitNl rest
    else
      match splitNl rest with
      | [] => [[c]]
      | h :: t => (c :: h) :: t

/-- Python newline .join. -/
def joinNl : List (List Char) → List Char
  | [] => []
  | [l] => l
  | l :: rest => l ++ '\n' :: joinNl rest

/-- Python substring containment (the in operator on strings). -/
def containsSub (s pat : List Char) : Bool :=
  match s with
  | [] => pat.isEmpty
  | _ :: t => pat.isPrefixOf s || containsSub t pat

/-- Semantics of re.match on the anchored pattern digits-then-period used by the Cleaner:
the line starts with one or more decimal digits immediately followed by a period. -/
def ordMatch (s : List Char) : Bool :=
  match s with
  | [] => false
  | c :: rest => isDigitChar c && ordMatchAfter rest
where
  /-- After at least one digit: more digits, then a period. -/
  ordMatchAfter : List Char → Bool
  | [] => false
  | c :: rest => if isDigitChar c then ordMatchAfter rest else c = '.'

/-- Consume the remaining digits and the period of the leading-ordinal pattern. -/
def stripOrdDigits : List Char → Option (List Char)
  | [] => none
  | c :: rest =>
    if isDigitChar c then stripOrdDigits rest
    else if c = '.' then some rest else none

/-- Consume a leading ordinal (digits then period), returning the remainder. -/
def stripOrdCore : List Char → Option (List Char)
  | [] => none
  | c :: rest => if isDigitChar c then stripOrdDigits rest else none

/-- Drop leading Python whitespace (the greedy trailing space class of the ordinal regex). -/
def dropWs (s : List Char) : List Char :=
  s.dropWhile isPySpace

/-- Semantics of re.sub deleting an anchored leading ordinal (digits, period, then
whitespace) as both source files do before keeping a line's content. -/
def stripOrd (s : List Char) : List Char :=
  match stripOrdCore s with
  | some r => dropWs r
  | none => s

/-- Scanner for the parenthetical-removal substitution: the flag records whether
the scan is inside an opening-parenthesis span that will be deleted (entered only
when a closing parenthesis exists further right, as the non-greedy pattern
requires one); inside a span, characters up to and including the nearest closing
parenthesis are dropped. -/
def remParensGo : Bool → List Char → List Char
  | _, [] => []
  | true, c :: rest =>
    if c = ')' then remParensGo false rest else remParensGo true rest
  | false, c :: rest =>
    if c = '(' && rest.contains ')' then remParensGo true rest
    else c :: remParensGo false rest

/-- Semantics of re.sub deleting non-greedy parenthesised spans from a newline-free
line, as the Cleaner does: each opening parenthesis with a later closing one is
removed together with everything up to the nearest closing parenthesis. -/
def remParens (s : List Char) : List Char :=
  remParensGo false s

/-- Scanner for the whitespace-collapsing substitution: the flag records whether
the previous character was part of a whitespace run already emitted as one space. -/
def collapseWsGo : Bool → List Char → List Char
  | _, [] => []
  | prevWs, c :: rest =>
    if isPySpace c then
      if prevWs then collapseWsGo true rest
      else ' ' :: collapseWsGo true rest
    else c :: collapseWsGo false rest

/-- Semantics of re.sub collapsing whitespace runs of a newline-free line into
single spaces, as the Cleaner does. -/
def collapseWs (s : List Char) : List Char :=
  collapseWsGo false s

/-- The allowed top-level categories of clean_feedback, in source order. -/
def allowed_categories : List (List Char) :=
  [("Food Quality".data), ("Service".data), ("Cleanliness".data),
   ("Value".data), ("Ambiance".data)]

/-- The hedging-phrase denylist of clean_feedback, in source order. -/
def skip_phrases : List (List Char) :=
  [("not mentioned".data), ("not explicitly".data), ("not specified".data),
   ("implied".data), ("not discussed".data), ("none".data), ("n/a".data),
   ("can be considered".data), ("however".data), ("since".data),
   ("although".data), ("note:".data), ("the review".data)]

/-- One iteration of the Cleaner loop body: the filters applied to one raw line,
returning the cleaned surviving line if the line passes all of them. -/
def processLine (line : List Char) : Option (List Char) :=
  let l := pyStrip line
  if l.isEmpty then none
  else if skip_phrases.any (fun p => containsSub (lowerStr l) p) then none
  else if !(ordMatch l) then none
  else if !(allowed_categories.any (fun c => containsSub l c)) then none
  else some (pyStrip (collapseWs (remParens l)))

/-- The surviving lines of the Cleaner, before the cap of four. -/
def valid_points (feedback_text : List Char) : List (List Char) :=
  (splitNl (pyStrip feedback_text)).filterMap processLine

/-- clean_feedback from review_analyzer.py (identical copy in business_insights.py):
filter the lines, keep the first four survivors, and fall back to the original
text when fewer than two survive. -/
def clean_feedback (feedback_text : List Char) : List Char :=
  let result := (valid_points feedback_text).take 4
  if result.length < 2 then feedback_text
  else joinNl result

/-- Find the first occurrence of a literal inside a string and return the suffix
after that occurrence, none when the literal does not occur. -/
def subSearch : List Char → List Char → Option (List Char)
  | [], pat => if pat.isEmpty then some [] else none
  | c :: t, pat =>
    if pat.isPrefixOf (c :: t) then some (List.drop pat.length (c :: t))
    else subSearch t pat

/-- Occurrence of a sequence of literal strings inside a string, in order and
without overlap: the boolean matching semantics of the source regex patterns of
the shape literal, lazy gap, literal, lazy gap, ... on a newline-free line
(re.search finds a match exactly when the literals occur in order, and taking
each first occurrence is equivalent for literal patterns). -/
def seqMatch (s : List Char) : List (List Char) → Bool
  | [] => true
  | p :: ps =>
    match subSearch s p with
    | some rest => seqMatch rest ps
    | none => false

/-- One standardization rule: the category literal of the pattern (lower-cased,
matching is case-insensitive), the keyword alternatives of its group (each
alternative a sequence of literals, two entries for the one keyword written with
an inner gap), and the canonical replacement label. -/
structure Rule where
  cat : List Char
  kws : List (List (List Char))
  repl : List Char

/-- A rule matches a line when the lower-cased line contains the category literal
followed by one of the keyword alternatives, the source's re.search with
re.IGNORECASE on the pattern category-literal, lazy gap, keyword group. -/
def ruleMatches (r : Rule) (line : List Char) : Bool :=
  r.kws.any (fun kw => seqMatch (lowerStr line) (r.cat :: kw))

/-- The standardizations mapping of standardize_feedback, in source (insertion)
order; identical in review_analyzer.py and business_insights.py. -/
def standardizations : List Rule :=
  [⟨("service:".data),
    [[("slow".data)], [("wait".data)], [("delay".data)], [("took".data), ("long".data)],
     [("forever".data)], [("responsiveness".data)], [("speed".data)]],
    ("Service: speed".data)⟩,
   ⟨("service:".data),
    [[("friendly".data)], [("rude".data)], [("attitude".data)], [("interaction".data)]],
    ("Service: friendliness".data)⟩,
   ⟨("service:".data),
    [[("attentive".data)], [("attention".data)], [("check".data)]],
    ("Service: attentiveness".data)⟩,
   ⟨("service:".data),
    [[("professional".data)], [("accommodation".data)], [("handling".data)]],
    ("Service: professionalism".data)⟩,
   ⟨("food quality:".data),
    [[("cold".data)], [("warm".data)], [("hot".data)], [("temperature".data)]],
    ("Food Quality: temperature".data)⟩,
   ⟨("food quality:".data),
    [[("delicious".data)], [("taste".data)], [("flavor".data)], [("yummy".data)]],
    ("Food Quality: taste".data)⟩,
   ⟨("food quality:".data),
    [[("fresh".data)], [("stale".data)]],
    ("Food Quality: freshness".data)⟩,
   ⟨("food quality:".data),
    [[("portion".data)], [("size".data)], [("amount".data)]],
    ("Food Quality: portion size".data)⟩,
   ⟨("food quality:".data),
    [[("variety".data)], [("options".data)], [("selection".data)]],
    ("Food Quality: variety".data)⟩,
   ⟨("food quality:".data),
    [[("presentation".data)], [("plating".data)], [("appearance".data)]],
    ("Food Quality: presentation".data)⟩,
   ⟨("value:".data),
    [[("expensive".data)], [("pricey".data)], [("cheap".data)], [("cost".data)],
     [("price".data)], [("pricing".data)]],
    ("Value: pricing".data)⟩,
   ⟨("value:".data),
    [[("worth".data)], [("money".data)], [("value".data)]],
    ("Value: quality for cost".data)⟩,
   ⟨("ambiance:".data),
    [[("loud".data)], [("quiet".data)], [("noise".data)]],
    ("Ambiance: noise level".data)⟩,
   ⟨("ambiance:".data),
    [[("decor".data)], [("decoration".data)], [("aesthetic".data)]],
    ("Ambiance: decor".data)⟩,
   ⟨("ambiance:".data),
    [[("comfort".data)], [("cozy".data)], [("space".data)]],
    ("Ambiance: comfort".data)⟩,
   ⟨("ambiance:".data),
    [[("atmosphere".data)], [("vibe".data)], [("ambiance".data)]],
    ("Ambiance: atmosphere".data)⟩,
   ⟨("ambiance:".data),
    [[("light".data)], [("lighting".data)], [("bright".data)], [("dark".data)]],
    ("Ambiance: lighting".data)⟩,
   ⟨("cleanliness:".data),
    [[("clean".data)], [("dirty".data)], [("hygiene".data)], [("sanitary".data)]],
    ("Cleanliness: overall hygiene".data)⟩]

/-- The replacement of the first rule of the ordered list matching the line,
the inner loop of standardize_feedback with its break. -/
def findRule (line : List Char) : Option (List Char) :=
  (standardizations.find? (fun r => ruleMatches r line)).map Rule.repl

/-- Decimal digit character. -/
def digitChar (n : Nat) : Char :=
  Char.ofNat (48 + n)

/-- Fuelled digit emitter for the decimal representation: prepend the low digit
and recurse on the quotient; any fuel above the digit count is enough. -/
def natCharsAux : Nat → Nat → List Char → List Char
  | 0, _, acc => acc
  | fuel + 1, n, acc =>
    if n < 10 then digitChar n :: acc
    else natCharsAux fuel (n / 10) (digitChar (n % 10) :: acc)

/-- Decimal representation of a natural number, the semantics of Python string
interpolation of an int. -/
def natChars (n : Nat) : List Char :=
  natCharsAux (n + 1) n []

/-- A renumbered output line of standardize_feedback: number, period, space, content. -/
def numberLine (n : Nat) (content : List Char) : List Char :=
  natChars n ++ '.' :: ' ' :: content

/-- The loop body of standardize_feedback: skip blank lines, replace the line by
the first matching rule's canonical label, otherwise keep its content with the
leading ordinal stripped when that content is non-empty; either way renumber. -/
def stdStep (acc : List (List Char)) (line : List Char) : List (List Char) :=
  if (pyStrip line).isEmpty then acc
  else
    match findRule line with
    | some repl => acc ++ [numberLine (acc.length + 1) repl]
    | none =>
      if (stripOrd line).isEmpty then acc
      else acc ++ [numberLine (acc.length + 1) (stripOrd line)]

/-- standardize_feedback from review_analyzer.py (identical copy in
business_insights.py). -/
def standardize_feedback (feedback_text : List Char) : List Char :=
  joinNl ((splitNl feedback_text).foldl stdStep [])

/-- extract_feedback_categories from business_insights.py: strip each line and
its leading ordinal, keeping the non-empty results in order. -/
def extract_feedback_categories (feedback_text : List Char) : List (List Char) :=
  (splitNl feedback_text).filterMap (fun line =>
    let l := stripOrd (pyStrip line)
    if l.isEmpty then none else some l)

/-- The per-review normalization pipeline of business_insights.py applied to one
stubbed model response: clean, standardize, and extract the category labels. -/
def reviewLabels (response : List Char) : List (List Char) :=
  extract_feedback_categories (standardize_feedback (clean_feedback response))

/-- Flattened multiset of labels over all of a business's reviews, the
all_feedback_categories accumulator of analyze_business_reviews, with the
generative model stubbed by the given per-review responses. -/
def aggregateLabels (responses : List (List Char)) : List (List Char) :=
  (responses.map reviewLabels).flatten

/-- Distinct elements of a list in first-occurrence order, scanning with the set
of keys already seen. -/
def firstKeysGo : List (List Char) → List (List Char) → List (List Char)
  | _, [] => []
  | seen, k :: rest =>
    if seen.contains k then firstKeysGo seen rest
    else k :: firstKeysGo (k :: seen) rest

/-- Distinct elements of a list in first-occurrence order: the key order of a
Python Counter built by counting the list. -/
def firstKeys (l : List (List Char)) : List (List Char) :=
  firstKeysGo [] l

/-- The items of the Counter over a list of labels: distinct keys in
first-occurrence order, each with its number of occurrences. -/
def counterItems (labels : List (List Char)) : List ((List Char) × Nat) :=
  (firstKeys labels).map (fun k => (k, labels.count k))

/-- Counter.most_common in the source: items sorted by count descending, ties in
insertion order (a stable sort), truncated to the requested length. -/
def mostCommon (labels : List (List Char)) (n : Nat) : List ((List Char) × Nat) :=
  ((counterItems labels).insertionSort (fun a b => b.2 ≤ a.2)).take n

/-- The top_issues list of analyze_business_reviews. -/
def top_issues (responses : List (List Char)) : List ((List Char) × Nat) :=
  mostCommon (aggregateLabels responses) 10

/-- The top-level category a label is booked under in the category breakdown:
the first of the five fixed categories that is a prefix of the label (the inner
loop with its break in analyze_business_reviews). -/
def catOf (label : List Char) : Option (List Char) :=
  allowed_categories.find? (fun c => c.isPrefixOf label)

/-- The category_summary dictionary of analyze_business_reviews: for each of
the five categories in fixed order, the sum of the Counter counts of the labels
booked under it. -/
def category_summary (labels : List (List Char)) : List ((List Char) × Nat) :=
  allowed_categories.map (fun c =>
    (c, (((counterItems labels).filter (fun kn => catOf kn.1 = some c)).map
          (fun kn => kn.2)).sum))

/-- The total_mentions denominator of the category breakdown. -/
def total_mentions (labels : List (List Char)) : Nat :=
  ((category_summary labels).map (fun kn => kn.2)).sum

/-- The priority tiers of the recommendation report. -/
inductive Priority
  | HIGH
  | MEDIUM
  | LOW
deriving DecidableEq

/-- The percentage expression used throughout analyze_business_reviews:
a count divided by a total, times one hundred (exact arithmetic). -/
def pct (count total : Nat) : ℚ :=
  ((count : ℚ) / (total : ℚ)) * 100

/-- The share of a business's reviews mentioning an issue, as printed with the
top issues and fed to the priority classification. -/
def issuePercentage (count totalReviews : Nat) : ℚ :=
  pct count totalReviews

/-- The percentage printed in the category breakdown: count over total mentions. -/
def breakdownPercentage (count : Nat) (labels : List (List Char)) : ℚ :=
  pct count (total_mentions labels)

/-- The percentage printed in the rating distribution: band size over review count. -/
def bandPercentage (bandCount totalReviews : Nat) : ℚ :=
  pct bandCount totalReviews

/-- The chained conditional classifying an issue's priority in
analyze_business_reviews. -/
def priorityOf (percentage : ℚ) : Priority :=
  if percentage > 20 then Priority.HIGH
  else if percentage > 10 then Priority.MEDIUM
  else Priority.LOW

/-- The rating bands of the rating distribution: reviews with at least four
stars, at most two stars, and exactly three stars. -/
def ratingBands (stars : List ℚ) : Nat × Nat × Nat :=
  ((stars.filter (fun x => 4 ≤ x)).length,
   (stars.filter (fun x => x ≤ 2)).length,
   (stars.filter (fun x => x = 3)).length)

/-- The fixed instruction template of analyze_review, with the review text
interpolated between the prompt head and tail. -/
def promptOf (review : List Char) : List Char :=
  ("Extract 3-4 key feedback points from this review.\n\nUse ONLY these categories:\n- Food Quality\n- Service\n- Cleanliness\n- Value\n- Ambiance\n\nFormat: \"Category: detail\"\n\nExamples:\n\"Food was cold and service slow\" → 1. Food Quality: temperature 2. Service: speed\n\"Great atmosphere but pricey\" → 1. Ambiance: atmosphere 2. Value: pricing\n\nReview: \"".data)
    ++ review ++ ("\"\n\nFeedback points:".data)

/-- analyze_review with the generative model boundary injected: the raw
extractor output is the model response to the prompt built from the review text. -/
def analyze_review (gen : List Char → List Char) (review_text : List Char) : List Char :=
  gen (promptOf review_text)

/-- The standardized feedback of the per-review pipeline of
analyze_review_with_suggestions, with the model boundary injected. -/
def feedback_points (gen : List Char → List Char) (review_text : List Char) : List Char :=
  standardize_feedback (clean_feedback (analyze_review gen review_text))

/-- The feedback_lines count of analyze_review_with_suggestions: the non-blank
lines of the standardized feedback, one suggestion each. -/
def numFeedbackPoints (gen : List Char → List Char) (review_text : List Char) : Nat :=
  ((splitNl (feedback_points gen review_text)).filter
    (fun l => !((pyStrip l).isEmpty))).length

/-- Pandas dtypes relevant to remove_low_variance_features. -/
inductive Dtype
  | int64
  | float64
  | int32
  | float32
  | objectD
  | boolD
deriving DecidableEq

/-- Membership of a dtype in the numeric dtype list of the source. -/
def Dtype.inNumericList : Dtype → Bool
  | .int64 => true
  | .float64 => true
  | .int32 => true
  | .float32 => true
  | _ => false

/-- One dataframe column: its label, dtype, and cells (none models a missing
value, which pandas nunique and value_counts skip). -/
structure Column where
  name : List Char
  dtype : Dtype
  values : List (Option ℚ)
deriving DecidableEq

/-- A dataframe is its ordered list of columns. -/
def DataFrame : Type := List Column

/-- The non-null cells of a column. -/
def nonNullValues (col : Column) : List ℚ :=
  col.values.filterMap id

/-- pandas Series.nunique: the number of distinct non-null cells. -/
def nunique (col : Column) : Nat :=
  (nonNullValues col).dedup.length

/-- The maximum of value_counts(normalize=True): the count of the most frequent
non-null cell over the number of non-null cells, none when there are no
non-null cells (an empty value_counts, whose max compares false against the
threshold). -/
def maxProportion (col : Column) : Option ℚ :=
  let nn := nonNullValues col
  if nn.isEmpty then none
  else some ((((nn.dedup.map (fun v => nn.count v)).foldl Nat.max 0 : Nat) : ℚ)
    / ((nn.length : Nat) : ℚ))

/-- The default exclusion list of remove_low_variance_features. -/
def exclude_cols : List (List Char) :=
  [("business_id".data), ("month".data), ("demand".data)]

/-- The body of the per-column test of remove_low_variance_features, applied to
columns already filtered by the exclusion list: numeric dtype, low cardinality,
and a dominant value proportion at or above the threshold. -/
def lowVarTest (threshold : ℚ) (col : Column) : Bool :=
  col.dtype.inNumericList && decide (nunique col ≤ 10) &&
    (match maxProportion col with
     | some p => decide (threshold ≤ p)
     | none => false)

/-- remove_low_variance_features from functions.py: collect the names of the
non-excluded numeric low-cardinality dominated columns, and drop those names
from the dataframe (when any were found), returning the pruned dataframe and
the dropped names. -/
def remove_low_variance_features (df : DataFrame) (threshold : ℚ) :
    DataFrame × List (List Char) :=
  let featureCols := List.filter (fun c => !(exclude_cols.contains c.name)) df
  let lowVarNames := (featureCols.filter (lowVarTest threshold)).map Column.name
  (if lowVarNames.isEmpty then df
   else List.filter (fun c => !(lowVarNames.contains c.name)) df,
   lowVarNames)

/-- The drop characterization of the claim: outside the exclusion list, numeric
dtype, at most ten distinct values, dominant proportion at least the threshold. -/
def dropSpec (threshold : ℚ) (col : Column) : Bool :=
  !(exclude_cols.contains col.name) && col.dtype.inNumericList &&
    decide (nunique col ≤ 10) &&
    (match maxProportion col with
     | some p => decide (threshold ≤ p)
     | none => false)

/-- Characters a leading-ordinal strip can consume: digits, the period, and
whitespace; none of them is a letter, so removing them never changes which
standardization rule fires. -/
def junkChar (c : Char) : Bool :=
  isDigitChar c || c = '.' || isPySpace c

/-- Value of a string of decimal digits, most significant first. -/
def parseDigits (ds : List Char) : Nat :=
  ds.foldl (fun a c => 10 * a + (c.toNat - 48)) 0

/-- The ordinal displayed at the head of a numbered line: the value of its
maximal leading digit run. -/
def leadingNat (line : List Char) : Nat :=
  parseDigits (line.takeWhile isDigitChar)

/-- Contents numbered consecutively from a starting ordinal, the shape of the
Standardizer's output list. -/
def numberFrom : Nat → List (List Char) → List (List Char)
  | _, [] => []
  | k, c :: cs => numberLine k c :: numberFrom (k + 1) cs

/-- A cleaned line as the claim describes the Standardizer's input: non-blank,
starting with an integer ordinal and a period, and containing one of the five
top-level category names. -/
def wellFormedLine (l : List Char) : Bool :=
  !((pyStrip l).isEmpty) && ordMatch l &&
    allowed_categories.any (fun c => containsSub l c)

/-- A line on which one pass of the Standardizer is stable: if non-blank, its
first matching rule is not the Value quality-for-cost rule (whose canonical
label re-matches the earlier Value pricing rule through the word cost), and if
no rule matches it, its content after the ordinal strip carries no leading
whitespace (which renumbering would otherwise swallow). -/
def stableLine (l : List Char) : Prop :=
  (pyStrip l).isEmpty = false →
    findRule l ≠ some (("Value: quality for cost").data) ∧
      (findRule l = none → dropWs (stripOrd l) = stripOrd l)

instance stableLine.decidable : DecidablePred stableLine := fun l => by
  unfold stableLine
  infer_instance

/-! Theorems. -/

/-- Claim C1. For every input string, if fewer than two lines survive the
Cleaner's filters, clean_feedback returns the original input string unchanged. -/
theorem C1_cleaner_fallback (t : List Char) (h : (valid_points t).length < 2) :
    clean_feedback t = t := by
  have hlen : ((valid_points t).take 4).length < 2 := by
    rw [List.length_take]; omega
  unfold clean_feedback
  simp only [hlen, if_true]

/-- Witness for C1 at the hedging-only extractor response of the spec: the
denylist removes its only line, zero lines survive, and the Cleaner returns the
original text unchanged. -/
theorem C1_cleaner_fallback_witness :
    (valid_points (("Not mentioned in this review.").data)).length < 2 ∧
      clean_feedback (("Not mentioned in this review.").data)
        = ("Not mentioned in this review.").data :=
  ⟨by decide, C1_cleaner_fallback _ (by decide)⟩

/-- Claim C5. Priority classification is a pure step function of the share as a
percentage: HIGH exactly above twenty, MEDIUM exactly above ten and at most
twenty, LOW exactly at or below ten; a share of one in five gives exactly
twenty percent and is not HIGH, one in ten gives exactly ten percent and is LOW. -/
theorem C5_priority_step_function :
    (∀ p : ℚ,
      (priorityOf p = Priority.HIGH ↔ 20 < p) ∧
      (priorityOf p = Priority.MEDIUM ↔ 10 < p ∧ p ≤ 20) ∧
      (priorityOf p = Priority.LOW ↔ p ≤ 10)) ∧
    issuePercentage 1 5 = 20 ∧ priorityOf (issuePercentage 1 5) ≠ Priority.HIGH ∧
    issuePercentage 1 10 = 10 ∧ priorityOf (issuePercentage 1 10) = Priority.LOW := by
  have hmain : ∀ p : ℚ,
      (priorityOf p = Priority.HIGH ↔ 20 < p) ∧
      (priorityOf p = Priority.MEDIUM ↔ 10 < p ∧ p ≤ 20) ∧
      (priorityOf p = Priority.LOW ↔ p ≤ 10) := by
    intro p
    unfold priorityOf
    split_ifs with h1 h2
    · exact ⟨⟨fun _ => h1, fun _ => rfl⟩,
        ⟨fun hc => absurd hc (by decide), fun hc => absurd h1 (not_lt.mpr hc.2)⟩,
        ⟨fun hc => absurd hc (by decide), fun hp => absurd h1 (by linarith)⟩⟩
    · exact ⟨⟨fun hc => absurd hc (by decide), fun h20 => absurd h20 h1⟩,
        ⟨fun _ => ⟨h2, not_lt.mp h1⟩, fun _ => rfl⟩,
        ⟨fun hc => absurd hc (by decide), fun hp => absurd h2 (not_lt.mpr hp)⟩⟩
    · exact ⟨⟨fun hc => absurd hc (by decide), fun h20 => absurd h20 h1⟩,
        ⟨fun hc => absurd hc (by decide), fun hc => absurd hc.1 h2⟩,
        ⟨fun _ => not_lt.mp h2, fun _ => rfl⟩⟩
  have h15 : issuePercentage 1 5 = 20 := by
    unfold issuePercentage pct; norm_num
  have h110 : issuePercentage 1 10 = 10 := by
    unfold issuePercentage pct; norm_num
  refine ⟨hmain, h15, ?_, h110, ?_⟩
  · rw [h15]
    intro hcontra
    have := (hmain 20).1.mp hcontra
    linarith
  · rw [h110]
    exact (hmain 10).2.2.mpr (by linarith)

/-- Claim C3 counterexample. On the stubbed response written as a single line
(as it appears in the prompt examples of the source), only one line survives
the Cleaner (so it falls back to the original), and the Standardizer matches
the Service speed rule first, producing one line, not two. -/
theorem C3_single_line_counterexample :
    standardize_feedback (clean_feedback
        (("1. Food Quality: temperature 2. Service: speed").data))
      = ("1. Service: speed").data ∧
    ¬((splitNl (standardize_feedback (clean_feedback
        (("1. Food Quality: temperature 2. Service: speed").data)))).length = 2) := by
  constructor
  · decide
  · decide

/-- Claim C3 amended. With the stubbed model response as two newline-separated
numbered lines, Cleaner then Standardizer produce exactly two numbered lines,
the first the canonical Food Quality temperature label and the second the
canonical Service speed label, in that order. -/
theorem C3_two_line_pipeline :
    splitNl (standardize_feedback (clean_feedback
        (("1. Food Quality: temperature\n2. Service: speed").data)))
      = [("1. Food Quality: temperature").data, ("2. Service: speed").data] ∧
    ("1. Food Quality: temperature").data
        = numberLine 1 (("Food Quality: temperature").data) ∧
    ("2. Service: speed").data = numberLine 2 (("Service: speed").data) := by
  refine ⟨by decide, by decide, by decide⟩

/-- Claim C7 counterexample. The per-review pipeline has no empty-text
short-circuit: with an empty review text and a stubbed model response holding
two valid feedback lines, the pipeline yields two feedback points, not zero. -/
theorem C7_empty_text_counterexample :
    numFeedbackPoints (fun _ => ("1. Service: slow\n2. Food Quality: cold").data) [] = 2 ∧
    ¬(numFeedbackPoints (fun _ => ("1. Service: slow\n2. Food Quality: cold").data) [] = 0) := by
  constructor
  · decide
  · decide

/-- Claim C7 amended. The pipeline never branches on the review text itself:
whenever the model gives the same response to the prompts of two review texts
(for instance an empty and a non-empty one), the standardized feedback and the
number of feedback points agree, so empty or missing text is not
short-circuited but flows into the prompt like any other text. -/
theorem C7_no_short_circuit (gen : List Char → List Char) (r1 r2 : List Char)
    (h : gen (promptOf r1) = gen (promptOf r2)) :
    feedback_points gen r1 = feedback_points gen r2 ∧
      numFeedbackPoints gen r1 = numFeedbackPoints gen r2 := by
  unfold numFeedbackPoints feedback_points analyze_review
  rw [h]
  exact ⟨rfl, rfl⟩

/-- Witness for C7 amended: a constant model stub answers the empty review and
a non-empty review identically, and the pipeline outputs agree. -/
theorem C7_no_short_circuit_witness :
    feedback_points (fun _ => ("1. Service: slow\n2. Value: cheap").data) []
        = feedback_points (fun _ => ("1. Service: slow\n2. Value: cheap").data) (("x").data) ∧
      numFeedbackPoints (fun _ => ("1. Service: slow\n2. Value: cheap").data) []
        = numFeedbackPoints (fun _ => ("1. Service: slow\n2. Value: cheap").data) (("x").data) :=
  C7_no_short_circuit _ [] (("x").data) rfl

theorem find?_take_spec {α : Type} (p : α → Bool) :
    ∀ (l : List α) (i : Nat) (hi : i < l.length),
      (∀ r ∈ l.take i, p r = false) → p (l.get ⟨i, hi⟩) = true →
      l.find? p = some (l.get ⟨i, hi⟩) := by
  intro l
  induction l with
  | nil => intro i hi; simp at hi
  | cons a t ih =>
    intro i hi hbefore hmatch
    cases i with
    | zero =>
      simp only [List.get] at hmatch
      simp [List.find?_cons_of_pos, hmatch]
    | succ j =>
      have ha : p a = false := hbefore a (by simp)
      rw [List.find?_cons_of_neg _ (by simp [ha])]
      exact ih j (by simpa using hi)
        (fun r hr => hbefore r (by simpa using Or.inr hr))
        (by simpa using hmatch)

/-- Claim C8. The Standardizer applies the first matching rule in the fixed
order of the rule list; in particular a Service line matching both the speed
keywords and the friendliness keywords maps to the Service speed label. -/
theorem C8_first_match_priority :
    (∀ (line : List Char) (i : Nat) (hi : i < standardizations.length),
        (∀ r ∈ standardizations.take i, ruleMatches r line = false) →
        ruleMatches (standardizations.get ⟨i, hi⟩) line = true →
        findRule line = some (standardizations.get ⟨i, hi⟩).repl) ∧
    ruleMatches (standardizations.get ⟨0, by decide⟩)
        (("1. Service: slow and rude").data) = true ∧
    ruleMatches (standardizations.get ⟨1, by decide⟩)
        (("1. Service: slow and rude").data) = true ∧
    findRule (("1. Service: slow and rude").data) = some (("Service: speed").data) := by
  refine ⟨?_, by decide, by decide, by decide⟩
  intro line i hi hb hm
  unfold findRule
  rw [find?_take_spec _ standardizations i hi hb hm]
  rfl

/-- Witness for C8 at the ambiguous Service line: applying the first-match
property at index zero recovers the Service speed outcome. -/
theorem C8_first_match_priority_witness :
    findRule (("1. Service: slow and rude").data)
      = some (Rule.repl (standardizations.get ⟨0, by decide⟩)) :=
  C8_first_match_priority.1 (("1. Service: slow and rude").data) 0 (by decide)
    (by simp) (by decide)

theorem sum_le_length_of_forall_le_one (l : List Nat) (h : ∀ x ∈ l, x ≤ 1) :
    l.sum ≤ l.length := by
  induction l with
  | nil => simp
  | cons a t ih =>
    have ha := h a (by simp)
    have ht := ih (fun x hx => h x (by simp [hx]))
    simp only [List.sum_cons, List.length_cons]
    omega

/-- Claim C4 counterexample. The aggregation counts label occurrences, not
reviews: one review whose response standardizes to the Service speed label
twice yields an aggregated count of two against a review count of one. -/
theorem C4_duplicate_label_counterexample :
    top_issues [(("1. Service: slow\n2. Service: wait").data)]
        = [((("Service: speed").data), 2)] ∧
      ¬(2 ≤ ([(("1. Service: slow\n2. Service: wait").data)] : List (List Char)).length) :=
  ⟨by decide, by decide⟩

/-- Claim C4 amended. An aggregated issue's count is the number of occurrences
of its label over the business's standardized lines, so whenever every review
mentions the label at most once (the per-review-presence reading of mention
count in the spec), the count is at most the number of reviews. -/
theorem C4_mention_count_le_reviews (responses : List (List Char))
    (pair : List Char × Nat) (hmem : pair ∈ top_issues responses)
    (honce : ∀ resp ∈ responses, (reviewLabels resp).count pair.1 ≤ 1) :
    pair.2 ≤ responses.length := by
  have h1 : pair ∈ counterItems (aggregateLabels responses) :=
    ((List.perm_insertionSort _ _).mem_iff).mp (List.mem_of_mem_take hmem)
  obtain ⟨k, hk, hpair⟩ := List.mem_map.mp h1
  have h2 : pair.2 = (aggregateLabels responses).count pair.1 := by
    rw [← hpair]
  rw [h2]
  unfold aggregateLabels
  rw [List.count_flatten, List.map_map]
  calc ((responses.map fun r => (reviewLabels r).count pair.1).sum)
      ≤ (responses.map fun r => (reviewLabels r).count pair.1).length :=
        sum_le_length_of_forall_le_one _ (by
          intro x hx
          obtain ⟨r, hr, hxr⟩ := List.mem_map.mp hx
          exact hxr ▸ honce r hr)
    _ = responses.length := List.length_map _ _

/-- Witness for C4 amended: two reviews, each mentioning the Service speed
label exactly once, give that label an aggregated count of two, within the
review count of two. -/
theorem C4_mention_count_le_reviews_witness :
    ((("Service: speed").data), 2) ∈
        top_issues [(("1. Service: slow").data), (("1. Service: wait").data)] ∧
      2 ≤ ([(("1. Service: slow").data), (("1. Service: wait").data)] : List (List Char)).length :=
  ⟨by decide,
   C4_mention_count_le_reviews _ ((("Service: speed").data), 2) (by decide) (by decide)⟩

/-- Claim C10. remove_low_variance_features keeps exactly the columns that are
excluded, non-numeric, high-cardinality, or short of the dominance threshold:
dropping the collected names equals filtering the dataframe by the negation of
the drop characterization, and retained columns are the original column records
(values unchanged, order preserved). -/
theorem C10_low_variance_pruning (df : List Column) (threshold : ℚ)
    (hnames : (df.map Column.name).Nodup) :
    (remove_low_variance_features df threshold).1
      = df.filter (fun c => !(dropSpec threshold c)) := by
  unfold remove_low_variance_features
  have hspec : ∀ c, dropSpec threshold c
      = (!(exclude_cols.contains c.name) && lowVarTest threshold c) := by
    intro c
    unfold dropSpec lowVarTest
    cases exclude_cols.contains c.name <;>
      cases c.dtype.inNumericList <;> simp
  have key : ∀ c ∈ df,
      (((df.filter (fun c => !(exclude_cols.contains c.name))).filter
          (lowVarTest threshold)).map Column.name).contains c.name
        = dropSpec threshold c := by
    intro c hc
    by_cases hd : dropSpec threshold c = true
    · rw [hd]
      rw [hspec] at hd
      simp only [Bool.and_eq_true] at hd
      obtain ⟨hexcl, htest⟩ := hd
      have hmem2 : c ∈ (df.filter (fun c => !(exclude_cols.contains c.name))).filter
          (lowVarTest threshold) :=
        List.mem_filter.mpr ⟨List.mem_filter.mpr ⟨hc, hexcl⟩, htest⟩
      exact List.elem_iff.mpr (List.mem_map.mpr ⟨c, hmem2, rfl⟩)
    · rw [Bool.not_eq_true] at hd
      rw [hd]
      cases hcon : (((df.filter (fun c => !(exclude_cols.contains c.name))).filter
          (lowVarTest threshold)).map Column.name).contains c.name
      · rfl
      · exfalso
        obtain ⟨c2, hc2mem, hc2name⟩ := List.mem_map.mp (List.elem_iff.mp hcon)
        have hc2filter := List.mem_filter.mp hc2mem
        have hc2df := (List.mem_filter.mp hc2filter.1).1
        have hceq : c2 = c :=
          List.inj_on_of_nodup_map hnames hc2df hc hc2name
        rw [hceq] at hc2filter
        have : dropSpec threshold c = true := by
          rw [hspec]
          rw [(List.mem_filter.mp hc2filter.1).2, hc2filter.2]
          rfl
        rw [this] at hd
        cases hd
  by_cases hempty : (((df.filter (fun c => !(exclude_cols.contains c.name))).filter
      (lowVarTest threshold)).map Column.name).isEmpty
  · simp only [hempty, if_true]
    refine (List.filter_eq_self.mpr ?_).symm
    intro c hc
    have := key c hc
    rw [List.isEmpty_iff] at hempty
    rw [hempty] at this
    simp only [List.contains, List.elem] at this
    rw [← this]
    rfl
  · simp only [hempty, if_false]
    refine List.filter_congr ?_
    intro c hc
    rw [key c hc]

/-- Witness for C10 on a concrete dataframe with unique column names: an
excluded constant key column and a high-cardinality numeric column are kept
while a dominated binary flag column is dropped. -/
theorem C10_low_variance_pruning_witness :
    (([⟨("business_id".data), Dtype.int64, [some 1, some 1, some 1, some 1, some 1,
        some 1, some 1, some 1, some 1, some 1]⟩,
      ⟨("flag".data), Dtype.int64, [some 0, some 0, some 0, some 0, some 0,
        some 0, some 0, some 0, some 0, some 1]⟩,
      ⟨("price".data), Dtype.float64, [some 1, some 2, some 3, some 4, some 1,
        some 2, some 3, some 4, some 1, some 2]⟩] : List Column).map Column.name).Nodup ∧
    (remove_low_variance_features
      [⟨("business_id".data), Dtype.int64, [some 1, some 1, some 1, some 1, some 1,
        some 1, some 1, some 1, some 1, some 1]⟩,
       ⟨("flag".data), Dtype.int64, [some 0, some 0, some 0, some 0, some 0,
        some 0, some 0, some 0, some 0, some 1]⟩,
       ⟨("price".data), Dtype.float64, [some 1, some 2, some 3, some 4, some 1,
        some 2, some 3, some 4, some 1, some 2]⟩] ((9 : ℚ)/10)).1
      = ([⟨("business_id".data), Dtype.int64, [some 1, some 1, some 1, some 1, some 1,
          some 1, some 1, some 1, some 1, some 1]⟩,
         ⟨("flag".data), Dtype.int64, [some 0, some 0, some 0, some 0, some 0,
          some 0, some 0, some 0, some 0, some 1]⟩,
         ⟨("price".data), Dtype.float64, [some 1, some 2, some 3, some 4, some 1,
          some 2, some 3, some 4, some 1, some 2]⟩] : List Column).filter
          (fun c => !(dropSpec ((9 : ℚ)/10) c)) :=
  ⟨by decide, C10_low_variance_pruning _ _ (by decide)⟩

theorem mem_firstKeysGo (a : List Char) :
    ∀ (l seen : List (List Char)), a ∈ firstKeysGo seen l ↔ (a ∈ l ∧ a ∉ seen) := by
  intro l
  induction l with
  | nil => intro seen; simp [firstKeysGo]
  | cons k rest ih =>
    intro seen
    by_cases hk : seen.contains k
    · rw [firstKeysGo, if_pos hk, ih]
      constructor
      · rintro ⟨h1, h2⟩
        exact ⟨List.mem_cons_of_mem _ h1, h2⟩
      · rintro ⟨h1, h2⟩
        rcases List.mem_cons.mp h1 with h | h
        · exact absurd (h ▸ List.elem_iff.mp hk) h2
        · exact ⟨h, h2⟩
    · rw [firstKeysGo, if_neg hk]
      rw [List.mem_cons, ih]
      constructor
      · rintro (h | ⟨h1, h2⟩)
        · exact ⟨List.mem_cons.mpr (Or.inl h), fun hs =>
            hk (List.elem_iff.mpr (h ▸ hs))⟩
        · exact ⟨List.mem_cons_of_mem _ h1, fun hs => h2 (List.mem_cons_of_mem _ hs)⟩
      · rintro ⟨h1, h2⟩
        rcases List.mem_cons.mp h1 with h | h
        · exact Or.inl h
        · by_cases hak : a = k
          · exact Or.inl hak
          · exact Or.inr ⟨h, fun hs => (List.mem_cons.mp hs).elim hak h2⟩

theorem nodup_firstKeysGo :
    ∀ (l seen : List (List Char)), (firstKeysGo seen l).Nodup := by
  intro l
  induction l with
  | nil => intro seen; simp [firstKeysGo]
  | cons k rest ih =>
    intro seen
    by_cases hk : seen.contains k
    · rw [firstKeysGo, if_pos hk]; exact ih seen
    · rw [firstKeysGo, if_neg hk]
      refine List.Nodup.cons ?_ (ih (k :: seen))
      intro hmem
      exact ((mem_firstKeysGo k rest (k :: seen)).mp hmem).2 (List.mem_cons_self _ _)

theorem mem_firstKeys (a : List Char) (l : List (List Char)) :
    a ∈ firstKeys l ↔ a ∈ l := by
  unfold firstKeys
  rw [mem_firstKeysGo]
  simp

theorem nodup_firstKeys (l : List (List Char)) : (firstKeys l).Nodup :=
  nodup_firstKeysGo l []

theorem firstKeys_perm_dedup (l : List (List Char)) : (firstKeys l).Perm l.dedup := by
  rw [List.perm_ext_iff_of_nodup (nodup_firstKeys l) (List.nodup_dedup l)]
  intro a
  rw [mem_firstKeys, List.mem_dedup]

theorem count_beq_bridge (k : List Char) (labels : List (List Char)) :
    @List.count _ List.instBEq k labels = @List.count _ instBEqOfDecidableEq k labels := by
  unfold List.count
  apply List.countP_congr
  intro a _
  have h1 : (@BEq.beq _ List.instBEq a k) = true ↔ a = k := @beq_iff_eq _ List.instBEq _ a k
  have h2 : (@BEq.beq _ instBEqOfDecidableEq a k) = true ↔ a = k :=
    @beq_iff_eq _ instBEqOfDecidableEq _ a k
  rw [Bool.eq_iff_iff, h1, h2]
  simp

theorem counter_sum_filter (P : List Char → Bool) (labels : List (List Char)) :
    (((counterItems labels).filter (fun kn => P kn.1)).map (fun kn => kn.2)).sum
      = labels.countP P := by
  unfold counterItems
  rw [List.filter_map, List.map_map]
  have h1 : ((fun kn : (List Char) × Nat => P kn.1) ∘ (fun k => (k, labels.count k))) = P := rfl
  have h2 : ((fun kn : (List Char) × Nat => kn.2) ∘ (fun k => (k, labels.count k)))
      = fun k => labels.count k := rfl
  rw [h1, h2]
  rw [(((firstKeys_perm_dedup labels).filter P).map (fun k => labels.count k)).sum_eq]
  have hbridge : (fun k => @List.count _ List.instBEq k labels)
      = (fun k => @List.count _ instBEqOfDecidableEq k labels) := by
    funext k
    exact count_beq_bridge k labels
  rw [hbridge]
  exact List.sum_map_count_dedup_filter_eq_countP P labels

theorem countP_catOf_split (labels : List (List Char)) :
    labels.countP (fun l => decide (catOf l = some (("Food Quality").data)))
      + labels.countP (fun l => decide (catOf l = some (("Service").data)))
      + labels.countP (fun l => decide (catOf l = some (("Cleanliness").data)))
      + labels.countP (fun l => decide (catOf l = some (("Value").data)))
      + labels.countP (fun l => decide (catOf l = some (("Ambiance").data)))
      = labels.countP (fun l => (catOf l).isSome) := by
  induction labels with
  | nil => simp
  | cons a t ih =>
    simp only [List.countP_cons]
    rcases hcat : catOf a with _ | c
    · rw [hcat] at *
      simp at ih ⊢
      omega
    · have hc : c ∈ allowed_categories := List.mem_of_find?_eq_some hcat
      have hmem : c = ("Food Quality").data ∨ c = ("Service").data ∨
          c = ("Cleanliness").data ∨ c = ("Value").data ∨ c = ("Ambiance").data := by
        simpa [allowed_categories] using hc
      rcases hmem with h | h | h | h | h <;> subst h <;>
        simp only [hcat] <;> simp at ih ⊢ <;> omega

/-- Claim C9. The per-category mention totals of the category breakdown sum to
the number of aggregated label occurrences whose text starts with a recognized
top-level category, and the three percentage kinds divide by their respective
denominators: total mentions for the breakdown, the business review count for
issue shares and rating bands. -/
theorem C9_breakdown_totals (labels : List (List Char)) (count nReviews : Nat) :
    total_mentions labels = (labels.filter (fun l => (catOf l).isSome)).length ∧
      issuePercentage count nReviews = ((count : ℚ) * 100) / ((nReviews : ℚ)) ∧
      breakdownPercentage count labels = ((count : ℚ) * 100) / ((total_mentions labels : ℚ)) ∧
      bandPercentage count nReviews = ((count : ℚ) * 100) / ((nReviews : ℚ)) := by
  refine ⟨?_, ?_, ?_, ?_⟩
  · unfold total_mentions category_summary
    simp only [allowed_categories, List.map_cons, List.map_nil, List.sum_cons,
      List.sum_nil, Nat.add_zero]
    rw [counter_sum_filter (fun k => decide (catOf k = some (("Food Quality").data))),
      counter_sum_filter (fun k => decide (catOf k = some (("Service").data))),
      counter_sum_filter (fun k => decide (catOf k = some (("Cleanliness").data))),
      counter_sum_filter (fun k => decide (catOf k = some (("Value").data))),
      counter_sum_filter (fun k => decide (catOf k = some (("Ambiance").data))),
      ← List.countP_eq_length_filter]
    have hsplit := countP_catOf_split labels
    omega
  · unfold issuePercentage pct
    rw [div_mul_eq_mul_div]
  · unfold breakdownPercentage pct
    rw [div_mul_eq_mul_div]
  · unfold bandPercentage pct
    rw [div_mul_eq_mul_div]

theorem isDigitChar_toNat {c : Char} (h : isDigitChar c = true) :
    48 ≤ c.toNat ∧ c.toNat ≤ 57 := by
  unfold isDigitChar at h
  simp only [Bool.and_eq_true, decide_eq_true_eq] at h
  obtain ⟨h1, h2⟩ := h
  rw [Char.le_def] at h1 h2
  exact ⟨h1, h2⟩

theorem isPySpace_toNat {c : Char} (h : isPySpace c = true) : c.toNat ≤ 32 := by
  unfold isPySpace at h
  simp only [Bool.or_eq_true, decide_eq_true_eq] at h
  rcases h with ((((h | h) | h) | h) | h) | h <;> subst h <;> decide

theorem junkChar_toNat {c : Char} (h : junkChar c = true) : c.toNat < 65 := by
  unfold junkChar at h
  simp only [Bool.or_eq_true] at h
  rcases h with (h | h) | h
  · exact Nat.lt_of_le_of_lt (isDigitChar_toNat h).2 (by omega)
  · rw [decide_eq_true_eq] at h
    subst h
    decide
  · exact Nat.lt_of_le_of_lt (isPySpace_toNat h) (by omega)

theorem lowerChar_junk {c : Char} (h : junkChar c = true) : lowerChar c = c := by
  unfold lowerChar
  rw [if_neg]
  intro hc
  simp only [Bool.and_eq_true, decide_eq_true_eq] at hc
  rw [Char.le_def] at hc
  have h1 : (65 : Nat) ≤ c.toNat := hc.1
  have h2 := junkChar_toNat h
  omega

theorem subSearch_junk_append {q : Char} (qs : List Char) (hq : 97 ≤ q.toNat) :
    ∀ (u s : List Char), (∀ ch ∈ u, ch.toNat < 65) →
      subSearch (u ++ s) (q :: qs) = subSearch s (q :: qs) := by
  intro u
  induction u with
  | nil => intro s _; simp
  | cons a u ih =>
    intro s hu
    have ha : a.toNat < 65 := hu a (by simp)
    have hne : (q == a) = false := by
      rw [beq_eq_false_iff_ne]
      intro he
      rw [← he] at ha
      omega
    rw [List.cons_append, subSearch]
    rw [if_neg ?hpre]
    · exact ih s (fun ch hch => hu ch (by simp [hch]))
    case hpre =>
      intro hpre
      rw [List.isPrefixOf] at hpre
      rw [hne] at hpre
      simp at hpre

theorem seqMatch_junk_append {q : Char} (qs : List Char) (ps : List (List Char))
    (hq : 97 ≤ q.toNat) (u s : List Char) (hu : ∀ ch ∈ u, ch.toNat < 65) :
    seqMatch (u ++ s) ((q :: qs) :: ps) = seqMatch s ((q :: qs) :: ps) := by
  rw [seqMatch, seqMatch, subSearch_junk_append qs hq u s hu]

theorem any_congr_mem {α : Type} (p q : α → Bool) :
    ∀ (l : List α), (∀ a ∈ l, p a = q a) → l.any p = l.any q := by
  intro l
  induction l with
  | nil => intro _; rfl
  | cons a t ih =>
    intro h
    simp only [List.any_cons]
    rw [h a (by simp), ih (fun x hx => h x (by simp [hx]))]

theorem find?_congr_mem {α : Type} (p q : α → Bool) :
    ∀ (l : List α), (∀ a ∈ l, p a = q a) → l.find? p = l.find? q := by
  intro l
  induction l with
  | nil => intro _; rfl
  | cons a t ih =>
    intro h
    rcases hpa : p a with _ | _
    · rw [List.find?_cons_of_neg _ (by simp [hpa]),
        List.find?_cons_of_neg _ (by simp [← h a (by simp), hpa])]
      exact ih (fun x hx => h x (by simp [hx]))
    · rw [List.find?_cons_of_pos _ hpa, List.find?_cons_of_pos _ (by rw [← h a (by simp), hpa])]

theorem rule_cat_head_lower :
    standardizations.all (fun r =>
      match r.cat with
      | [] => false
      | q :: _ => decide (97 ≤ q.toNat)) = true := by
  decide

theorem ruleMatches_junk (r : Rule) (hr : r ∈ standardizations) (u c : List Char)
    (hu : ∀ ch ∈ u, junkChar ch = true) :
    ruleMatches r (u ++ c) = ruleMatches r c := by
  have hall := List.all_eq_true.mp rule_cat_head_lower r hr
  rcases hcat : r.cat with _ | ⟨q, qs⟩
  · rw [hcat] at hall
    simp at hall
  · rw [hcat] at hall
    have hq : 97 ≤ q.toNat := by simpa using hall
    unfold ruleMatches
    apply any_congr_mem
    intro kw _
    rw [hcat]
    unfold lowerStr
    rw [List.map_append]
    exact seqMatch_junk_append qs kw hq _ _ (by
      intro ch hch
      obtain ⟨ch0, hch0, hmap⟩ := List.mem_map.mp hch
      rw [← hmap, lowerChar_junk (hu ch0 hch0)]
      exact junkChar_toNat (hu ch0 hch0))

theorem findRule_junk (u c : List Char) (hu : ∀ ch ∈ u, junkChar ch = true) :
    findRule (u ++ c) = findRule c := by
  unfold findRule
  rw [find?_congr_mem _ _ standardizations
    (fun r hr => ruleMatches_junk r hr u c hu)]

theorem natCharsAux_shift : ∀ (fuel n : Nat) (acc : List Char),
    natCharsAux fuel n acc = natCharsAux fuel n [] ++ acc := by
  intro fuel
  induction fuel with
  | zero => intro n acc; rfl
  | succ f ih =>
    intro n acc
    by_cases h : n < 10
    · simp [natCharsAux, h]
    · rw [natCharsAux, if_neg h, natCharsAux, if_neg h]
      rw [ih (n / 10) (digitChar (n % 10) :: acc), ih (n / 10) [digitChar (n % 10)]]
      simp

theorem natCharsAux_fuel : ∀ (f1 : Nat), ∀ (f2 n : Nat), n < f1 → n < f2 →
    natCharsAux f1 n [] = natCharsAux f2 n [] := by
  intro f1
  induction f1 with
  | zero => intro f2 n h1; omega
  | succ g1 ih =>
    intro f2 n h1 h2
    rcases f2 with _ | g2
    · omega
    · by_cases h : n < 10
      · rw [natCharsAux, if_pos h, natCharsAux, if_pos h]
      · rw [natCharsAux, if_neg h, natCharsAux, if_neg h]
        rw [natCharsAux_shift g1, natCharsAux_shift g2]
        rw [ih g2 (n / 10) (by omega) (by omega)]

theorem natChars_unfold (n : Nat) :
    natChars n = if n < 10 then [digitChar n]
      else natChars (n / 10) ++ [digitChar (n % 10)] := by
  unfold natChars
  by_cases h : n < 10
  · rw [if_pos h, natCharsAux, if_pos h]
  · rw [if_neg h, natCharsAux, if_neg h]
    rw [natCharsAux_shift]
    rw [natCharsAux_fuel n (n / 10 + 1) (n / 10) (by omega) (by omega)]

theorem digitChar_digit {m : Nat} (h : m < 10) : isDigitChar (digitChar m) = true := by
  interval_cases m <;> decide

theorem digitChar_toNat {m : Nat} (h : m < 10) : (digitChar m).toNat = 48 + m := by
  interval_cases m <;> decide

theorem natChars_all_digits (n : Nat) : ∀ c ∈ natChars n, isDigitChar c = true := by
  induction n using Nat.strong_induction_on with
  | _ n ih =>
    rw [natChars_unfold]
    by_cases h : n < 10
    · rw [if_pos h]
      intro c hc
      rw [List.mem_singleton] at hc
      rw [hc]
      exact digitChar_digit h
    · rw [if_neg h]
      intro c hc
      rcases List.mem_append.mp hc with hm | hm
      · exact ih (n / 10) (by omega) c hm
      · rw [List.mem_singleton] at hm
        rw [hm]
        exact digitChar_digit (Nat.mod_lt _ (by omega))

theorem natChars_ne_nil (n : Nat) : natChars n ≠ [] := by
  rw [natChars_unfold]
  by_cases h : n < 10
  · rw [if_pos h]; simp
  · rw [if_neg h]; simp

theorem parseDigits_natChars (n : Nat) : parseDigits (natChars n) = n := by
  induction n using Nat.strong_induction_on with
  | _ n ih =>
    rw [natChars_unfold]
    by_cases h : n < 10
    · rw [if_pos h]
      unfold parseDigits
      simp only [List.foldl_cons, List.foldl_nil]
      rw [digitChar_toNat h]
      omega
    · rw [if_neg h]
      unfold parseDigits
      rw [List.foldl_append]
      have hrec : (natChars (n / 10)).foldl (fun a c => 10 * a + (c.toNat - 48)) 0
          = n / 10 := ih (n / 10) (by omega)
      rw [hrec]
      simp only [List.foldl_cons, List.foldl_nil]
      rw [digitChar_toNat (Nat.mod_lt _ (by omega))]
      omega

theorem takeWhile_all_append (p : Char → Bool) :
    ∀ (a b : List Char), (∀ c ∈ a, p c = true) →
      List.takeWhile p (a ++ b) = a ++ List.takeWhile p b := by
  intro a
  induction a with
  | nil => intro b _; rfl
  | cons x a ih =>
    intro b h
    rw [List.cons_append, List.takeWhile_cons_of_pos (h x (by simp))]
    rw [ih b (fun c hc => h c (by simp [hc]))]
    rfl

theorem leadingNat_numberLine (k : Nat) (c : List Char) :
    leadingNat (numberLine k c) = k := by
  unfold leadingNat numberLine
  rw [takeWhile_all_append _ _ _ (natChars_all_digits k)]
  rw [List.takeWhile_cons_of_neg (by decide)]
  rw [List.append_nil]
  exact parseDigits_natChars k

theorem splitNl_no_nl {l : List Char} (h : '\n' ∉ l) : splitNl l = [l] := by
  induction l with
  | nil => rfl
  | cons c t ih =>
    have hc : ¬(c = '\n') := fun he => h (he ▸ List.mem_cons_self _ _)
    rw [splitNl, if_neg hc, ih (fun hm => h (List.mem_cons_of_mem _ hm))]

theorem splitNl_append_nl {l : List Char} (h : '\n' ∉ l) (t : List Char) :
    splitNl (l ++ '\n' :: t) = l :: splitNl t := by
  induction l with
  | nil => rw [List.nil_append, splitNl, if_pos rfl]
  | cons c l ih =>
    have hc : ¬(c = '\n') := fun he => h (he ▸ List.mem_cons_self _ _)
    rw [List.cons_append, splitNl, if_neg hc,
      ih (fun hm => h (List.mem_cons_of_mem _ hm))]

theorem splitNl_joinNl : ∀ (ls : List (List Char)), ls ≠ [] →
    (∀ l ∈ ls, '\n' ∉ l) → splitNl (joinNl ls) = ls := by
  intro ls
  induction ls with
  | nil => intro h; exact absurd rfl h
  | cons l rest ih =>
    intro _ hnl
    rcases rest with _ | ⟨l2, rest2⟩
    · exact splitNl_no_nl (hnl l (by simp))
    · have hj : joinNl (l :: l2 :: rest2) = l ++ '\n' :: joinNl (l2 :: rest2) := rfl
      rw [hj, splitNl_append_nl (hnl l (by simp))]
      rw [ih (by intro h; cases h) (fun x hx => hnl x (by simp [hx]))]

theorem splitNl_ne_nil : ∀ (s : List Char), splitNl s ≠ [] := by
  intro s
  induction s with
  | nil => simp [splitNl]
  | cons c t _ =>
    rw [splitNl]
    split
    · simp
    · rcases hsp : splitNl t with _ | ⟨h0, t0⟩
      · simp
      · simp

theorem mem_splitNl_no_nl : ∀ (s : List Char), ∀ l ∈ splitNl s, '\n' ∉ l := by
  intro s
  induction s with
  | nil =>
    intro l hl
    rw [show splitNl [] = [[]] from rfl, List.mem_singleton] at hl
    rw [hl]
    simp
  | cons c t ih =>
    intro l hl
    by_cases hc : c = '\n'
    · rw [splitNl, if_pos hc] at hl
      rcases List.mem_cons.mp hl with h | h
      · rw [h]; simp
      · exact ih l h
    · rw [splitNl, if_neg hc] at hl
      rcases hsp : splitNl t with _ | ⟨h0, t0⟩
      · exact absurd hsp (splitNl_ne_nil t)
      · rw [hsp] at hl
        rcases List.mem_cons.mp hl with h | h
        · rw [h]
          intro hmem
          rcases List.mem_cons.mp hmem with h2 | h2
          · exact hc h2.symm
          · exact ih h0 (hsp ▸ List.mem_cons_self _ _) h2
        · exact ih l (hsp ▸ List.mem_cons_of_mem _ h)

theorem pyStrip_eq_nil_iff (l : List Char) :
    pyStrip l = [] ↔ ∀ c ∈ l, isPySpace c = true := by
  unfold pyStrip stripRight stripLeft
  constructor
  · intro h c hc
    rw [List.reverse_eq_nil_iff, List.dropWhile_eq_nil_iff] at h
    have hdrop : ∀ x ∈ l.dropWhile isPySpace, isPySpace x = true := by
      intro x hx
      exact h x (List.mem_reverse.mpr hx)
    rcases List.mem_append.mp
        ((List.takeWhile_append_dropWhile (p := isPySpace) (l := l)) ▸ hc) with hm | hm
    · exact List.mem_takeWhile_imp hm
    · exact hdrop c hm
  · intro h
    have h1 : l.dropWhile isPySpace = [] :=
      List.dropWhile_eq_nil_iff.mpr h
    rw [h1]
    rfl

theorem pyStrip_not_nil_of_mem {l : List Char} {c : Char} (hc : c ∈ l)
    (hws : isPySpace c = false) : (pyStrip l).isEmpty = false := by
  rcases hemp : (pyStrip l).isEmpty with _ | _
  · rfl
  · rw [List.isEmpty_iff] at hemp
    rw [pyStrip_eq_nil_iff] at hemp
    rw [hemp c hc] at hws
    cases hws

theorem digit_not_space {c : Char} (h : isDigitChar c = true) :
    isPySpace c = false := by
  rcases hsp : isPySpace c with _ | _
  · rfl
  · have h1 := (isDigitChar_toNat h).1
    have h2 := isPySpace_toNat hsp
    omega

theorem stripOrdDigits_decomp :
    ∀ (s r : List Char), stripOrdDigits s = some r →
      ∃ ds, s = ds ++ '.' :: r ∧ ∀ c ∈ ds, isDigitChar c = true := by
  intro s
  induction s with
  | nil => intro r h; cases h
  | cons c rest ih =>
    intro r h
    rw [stripOrdDigits] at h
    by_cases hd : isDigitChar c = true
    · rw [if_pos hd] at h
      obtain ⟨ds, hrest, hds⟩ := ih r h
      refine ⟨c :: ds, by rw [hrest]; rfl, ?_⟩
      intro x hx
      rcases List.mem_cons.mp hx with hm | hm
      · rw [hm]; exact hd
      · exact hds x hm
    · rw [if_neg hd] at h
      by_cases hp : c = '.'
      · rw [if_pos hp] at h
        refine ⟨[], ?_, by simp⟩
        rw [hp]
        injection h with h
        rw [h]
        rfl
      · rw [if_neg hp] at h
        cases h

theorem stripOrd_decomp (l : List Char) :
    ∃ junk, l = junk ++ stripOrd l ∧ ∀ c ∈ junk, junkChar c = true := by
  unfold stripOrd
  rcases hc : stripOrdCore l with _ | r
  · exact ⟨[], by simp, by simp⟩
  · rcases l with _ | ⟨c0, rest⟩
    · cases hc
    · rw [stripOrdCore] at hc
      by_cases hd : isDigitChar c0 = true
      · rw [if_pos hd] at hc
        obtain ⟨ds, hrest, hds⟩ := stripOrdDigits_decomp rest r hc
        refine ⟨c0 :: ds ++ '.' :: r.takeWhile isPySpace, ?_, ?_⟩
        · rw [hrest]
          simp only [List.cons_append, List.append_assoc, List.cons.injEq, true_and]
          rw [show dropWs r = List.dropWhile isPySpace r from rfl]
          rw [List.takeWhile_append_dropWhile]
        · intro x hx
          rcases List.mem_cons.mp hx with hm | hm
          · rw [hm]
            unfold junkChar
            rw [hd]
            rfl
          · rcases List.mem_append.mp hm with hm2 | hm2
            · unfold junkChar
              rw [hds x hm2]
              rfl
            · rcases List.mem_cons.mp hm2 with hm3 | hm3
              · rw [hm3]; rfl
              · unfold junkChar
                rw [List.mem_takeWhile_imp hm3]
                simp
      · rw [if_neg hd] at hc
        cases hc

theorem stripOrdDigits_all_digits (r : List Char) :
    ∀ (ds : List Char), (∀ c ∈ ds, isDigitChar c = true) →
      stripOrdDigits (ds ++ '.' :: r) = some r := by
  intro ds
  induction ds with
  | nil =>
    intro _
    rw [List.nil_append, stripOrdDigits, if_neg (by decide), if_pos rfl]
  | cons c ds ih =>
    intro h
    rw [List.cons_append, stripOrdDigits, if_pos (h c (by simp))]
    exact ih (fun x hx => h x (by simp [hx]))

theorem stripOrd_numberLine (k : Nat) (c : List Char) :
    stripOrd (numberLine k c) = dropWs c := by
  unfold numberLine stripOrd
  rcases hnc : natChars k with _ | ⟨d, ds⟩
  · exact absurd hnc (natChars_ne_nil k)
  · have hdig := natChars_all_digits k
    rw [hnc] at hdig
    rw [List.cons_append, stripOrdCore, if_pos (hdig d (by simp))]
    rw [show ds ++ '.' :: ' ' :: c = ds ++ '.' :: (' ' :: c) from rfl]
    rw [stripOrdDigits_all_digits (' ' :: c) ds (fun x hx => hdig x (by simp [hx]))]
    show dropWs (' ' :: c) = dropWs c
    unfold dropWs
    rw [List.dropWhile_cons_of_pos (by decide)]

theorem findRule_numberLine (k : Nat) (c : List Char) :
    findRule (numberLine k c) = findRule c := by
  have hshape : numberLine k c = (natChars k ++ ['.', ' ']) ++ c := by
    unfold numberLine
    simp
  rw [hshape]
  apply findRule_junk
  intro ch hch
  rcases List.mem_append.mp hch with hm | hm
  · unfold junkChar
    rw [natChars_all_digits k ch hm]
    rfl
  · rcases List.mem_cons.mp hm with hm2 | hm2
    · rw [hm2]; rfl
    · rcases List.mem_cons.mp hm2 with hm3 | hm3
      · rw [hm3]; rfl
      · cases hm3

theorem numberLine_strip_nonempty (k : Nat) (c : List Char) :
    (pyStrip (numberLine k c)).isEmpty = false := by
  rcases hnc : natChars k with _ | ⟨d, ds⟩
  · exact absurd hnc (natChars_ne_nil k)
  · have hdig := natChars_all_digits k
    rw [hnc] at hdig
    refine pyStrip_not_nil_of_mem (c := d) ?_ (digit_not_space (hdig d (by simp)))
    unfold numberLine
    rw [hnc]
    simp

theorem numberLine_no_nl (k : Nat) (c : List Char) (h : '\n' ∉ c) :
    '\n' ∉ numberLine k c := by
  unfold numberLine
  intro hmem
  rcases List.mem_append.mp hmem with hm | hm
  · have := natChars_all_digits k _ hm
    have h1 := (isDigitChar_toNat this).1
    have : ('\n').toNat = 10 := by decide
    omega
  · rcases List.mem_cons.mp hm with hm2 | hm2
    · cases hm2
    · rcases List.mem_cons.mp hm2 with hm3 | hm3
      · cases hm3
      · exact h hm3

theorem numberFrom_length : ∀ (cs : List (List Char)) (k : Nat),
    (numberFrom k cs).length = cs.length := by
  intro cs
  induction cs with
  | nil => intro k; rfl
  | cons c cs ih =>
    intro k
    rw [numberFrom, List.length_cons, List.length_cons, ih]

theorem numberFrom_map_leadingNat : ∀ (cs : List (List Char)) (k : Nat),
    (numberFrom k cs).map leadingNat = List.range' k cs.length := by
  intro cs
  induction cs with
  | nil => intro k; rfl
  | cons c cs ih =>
    intro k
    rw [numberFrom, List.map_cons, leadingNat_numberLine, ih,
      List.length_cons, List.range'_succ]

theorem numberFrom_no_nl : ∀ (cs : List (List Char)) (k : Nat),
    (∀ c ∈ cs, '\n' ∉ c) → ∀ l ∈ numberFrom k cs, '\n' ∉ l := by
  intro cs
  induction cs with
  | nil => intro k _ l hl; cases hl
  | cons c cs ih =>
    intro k h l hl
    rw [numberFrom] at hl
    rcases List.mem_cons.mp hl with hm | hm
    · rw [hm]
      exact numberLine_no_nl k c (h c (by simp))
    · exact ih (k + 1) (fun x hx => h x (by simp [hx])) l hm

theorem numberFrom_ne_nil {cs : List (List Char)} (h : cs ≠ []) (k : Nat) :
    numberFrom k cs ≠ [] := by
  rcases cs with _ | ⟨c, cs⟩
  · exact absurd rfl h
  · rw [numberFrom]
    exact fun he => List.noConfusion he

theorem containsSub_decomp : ∀ (s pat : List Char), containsSub s pat = true →
    ∃ u v, s = u ++ pat ++ v := by
  intro s
  induction s with
  | nil =>
    intro pat h
    rw [containsSub] at h
    rw [List.isEmpty_iff] at h
    exact ⟨[], [], by rw [h]; rfl⟩
  | cons c t ih =>
    intro pat h
    rw [containsSub, Bool.or_eq_true] at h
    rcases h with h | h
    · rw [List.isPrefixOf_iff_prefix] at h
      obtain ⟨v, hv⟩ := h
      exact ⟨[], v, by rw [← hv]; rfl⟩
    · obtain ⟨u, v, huv⟩ := ih pat h
      exact ⟨c :: u, v, by rw [huv]; rfl⟩

theorem category_heads :
    allowed_categories.all (fun cat =>
      match cat with
      | [] => false
      | h :: _ => !(junkChar h)) = true := by
  decide

theorem stripOrd_ne_nil_of_category {l : List Char}
    (hcat : allowed_categories.any (fun c => containsSub l c) = true) :
    stripOrd l ≠ [] := by
  obtain ⟨cat, hmem, hcont⟩ := List.any_eq_true.mp hcat
  obtain ⟨u, v, hdec⟩ := containsSub_decomp l cat hcont
  obtain ⟨junk, hjunk, hjc⟩ := stripOrd_decomp l
  intro hnil
  rw [hnil, List.append_nil] at hjunk
  have hall := List.all_eq_true.mp category_heads cat hmem
  rcases hhead : cat with _ | ⟨h0, t0⟩
  · rw [hhead] at hall
    simp at hall
  · rw [hhead] at hall
    have hall2 : (!(junkChar h0)) = true := hall
    have hj0 : junkChar h0 = false := by simpa using hall2
    have hmem0 : h0 ∈ l := by
      rw [hdec, hhead]
      simp
    rw [hjunk] at hmem0
    rw [hjc h0 hmem0] at hj0
    cases hj0

theorem repl_no_nl : ∀ r ∈ standardizations, '\n' ∉ r.repl := by
  decide

theorem repl_good : ∀ r ∈ standardizations,
    r.repl ≠ (("Value: quality for cost").data) →
      r.repl ≠ [] ∧ dropWs r.repl = r.repl ∧
        (findRule r.repl = some r.repl ∨ findRule r.repl = none) := by
  decide

theorem findRule_repl {l repl : List Char} (h : findRule l = some repl) :
    ∃ r ∈ standardizations, r.repl = repl := by
  unfold findRule at h
  obtain ⟨r, hfind, hrepl⟩ := Option.map_eq_some'.mp h
  exact ⟨r, List.mem_of_find?_eq_some hfind, hrepl⟩

theorem findRule_stripOrd (l : List Char) : findRule (stripOrd l) = findRule l := by
  obtain ⟨junk, hjunk, hjc⟩ := stripOrd_decomp l
  conv_rhs => rw [hjunk]
  rw [findRule_junk junk (stripOrd l) hjc]

theorem mem_stripOrd_mem {l : List Char} {c : Char} (h : c ∈ stripOrd l) : c ∈ l := by
  obtain ⟨junk, hjunk, _⟩ := stripOrd_decomp l
  rw [hjunk]
  exact List.mem_append.mpr (Or.inr h)

theorem isEmpty_false_of_ne_nil {c : List Char} (h : c ≠ []) : c.isEmpty = false := by
  rcases c with _ | ⟨a, t⟩
  · exact absurd rfl h
  · rfl

theorem stdStep_numberLine (acc : List (List Char)) (c : List Char)
    (hne : c ≠ []) (hdrop : dropWs c = c)
    (hfr : findRule c = some c ∨ findRule c = none) :
    stdStep acc (numberLine (acc.length + 1) c)
      = acc ++ [numberLine (acc.length + 1) c] := by
  unfold stdStep
  rw [numberLine_strip_nonempty]
  rw [if_neg (by simp)]
  rw [findRule_numberLine]
  rcases hfr with hsome | hnone
  · rw [hsome]
  · rw [hnone, stripOrd_numberLine, hdrop]
    rw [if_neg (by rw [isEmpty_false_of_ne_nil hne]; simp)]

theorem stdFold_fixpoint : ∀ (cs : List (List Char)) (acc : List (List Char)),
    (∀ c ∈ cs, c ≠ [] ∧ dropWs c = c ∧ (findRule c = some c ∨ findRule c = none)) →
    List.foldl stdStep acc (numberFrom (acc.length + 1) cs)
      = acc ++ numberFrom (acc.length + 1) cs := by
  intro cs
  induction cs with
  | nil => intro acc _; rw [numberFrom, List.foldl_nil, List.append_nil]
  | cons c cs ih =>
    intro acc h
    obtain ⟨hne, hdrop, hfr⟩ := h c (by simp)
    rw [numberFrom, List.foldl_cons]
    rw [stdStep_numberLine acc c hne hdrop hfr]
    have hstep := ih (acc ++ [numberLine (acc.length + 1) c])
      (fun x hx => h x (by simp [hx]))
    rw [List.length_append, List.length_cons, List.length_nil] at hstep
    rw [hstep]
    simp

theorem ne_nil_of_isEmpty_false {c : List Char} (h : c.isEmpty = false) : c ≠ [] := by
  intro he
  rw [he] at h
  cases h

theorem stdFold_stable : ∀ (lines : List (List Char)) (acc : List (List Char)),
    (∀ l ∈ lines, stableLine l ∧ '\n' ∉ l) →
    ∃ cs, List.foldl stdStep acc lines = acc ++ numberFrom (acc.length + 1) cs ∧
      ∀ c ∈ cs, (c ≠ [] ∧ dropWs c = c ∧
        (findRule c = some c ∨ findRule c = none)) ∧ '\n' ∉ c := by
  intro lines
  induction lines with
  | nil =>
    intro acc _
    exact ⟨[], by rw [List.foldl_nil, numberFrom, List.append_nil], by simp⟩
  | cons l lines ih =>
    intro acc h
    obtain ⟨hstab, hnl⟩ := h l (by simp)
    rw [List.foldl_cons]
    by_cases hblank : (pyStrip l).isEmpty = true
    · have hstep : stdStep acc l = acc := by
        unfold stdStep
        rw [hblank, if_pos rfl]
      rw [hstep]
      exact ih acc (fun x hx => h x (by simp [hx]))
    · rw [Bool.not_eq_true] at hblank
      obtain ⟨hqfc, hpass⟩ := hstab hblank
      rcases hfr : findRule l with _ | repl
      · by_cases hcont : (stripOrd l).isEmpty = true
        · have hstep : stdStep acc l = acc := by
            unfold stdStep
            rw [hblank, hfr, hcont]
            simp
          rw [hstep]
          exact ih acc (fun x hx => h x (by simp [hx]))
        · rw [Bool.not_eq_true] at hcont
          have hstep : stdStep acc l
              = acc ++ [numberLine (acc.length + 1) (stripOrd l)] := by
            unfold stdStep
            rw [hblank, hfr, hcont]
            simp
          rw [hstep]
          obtain ⟨cs, hfold, hgood⟩ :=
            ih (acc ++ [numberLine (acc.length + 1) (stripOrd l)])
              (fun x hx => h x (by simp [hx]))
          rw [List.length_append, List.length_cons, List.length_nil] at hfold
          refine ⟨stripOrd l :: cs, ?_, ?_⟩
          · rw [hfold, numberFrom]
            simp
          · intro c hc
            rcases List.mem_cons.mp hc with hm | hm
            · rw [hm]
              refine ⟨⟨ne_nil_of_isEmpty_false hcont, hpass hfr, ?_⟩, ?_⟩
              · rw [findRule_stripOrd, hfr]
                exact Or.inr rfl
              · intro hmem
                exact hnl (mem_stripOrd_mem hmem)
            · exact hgood c hm
      · have hstep : stdStep acc l = acc ++ [numberLine (acc.length + 1) repl] := by
          unfold stdStep
          rw [hblank, hfr]
          simp
        rw [hstep]
        obtain ⟨r, hrmem, hrrepl⟩ := findRule_repl hfr
        have hrne : repl ≠ (("Value: quality for cost").data) := by
          intro he
          exact hqfc (by rw [hfr, he])
        obtain ⟨hg1, hg2, hg3⟩ := repl_good r hrmem (by rw [hrrepl]; exact hrne)
        obtain ⟨cs, hfold, hgood⟩ :=
          ih (acc ++ [numberLine (acc.length + 1) repl])
            (fun x hx => h x (by simp [hx]))
        rw [List.length_append, List.length_cons, List.length_nil] at hfold
        refine ⟨repl :: cs, ?_, ?_⟩
        · rw [hfold, numberFrom]
          simp
        · intro c hc
          rcases List.mem_cons.mp hc with hm | hm
          · rw [hm]
            refine ⟨⟨hrrepl ▸ hg1, hrrepl ▸ hg2, hrrepl ▸ hg3⟩, hrrepl ▸ repl_no_nl r hrmem⟩
          · exact hgood c hm

theorem stdFold_wellFormed : ∀ (lines : List (List Char)) (acc : List (List Char)),
    (∀ l ∈ lines, wellFormedLine l = true ∧ '\n' ∉ l) →
    ∃ cs, cs.length = lines.length ∧
      List.foldl stdStep acc lines = acc ++ numberFrom (acc.length + 1) cs ∧
      ∀ c ∈ cs, '\n' ∉ c := by
  intro lines
  induction lines with
  | nil =>
    intro acc _
    exact ⟨[], rfl, by rw [List.foldl_nil, numberFrom, List.append_nil], by simp⟩
  | cons l lines ih =>
    intro acc h
    obtain ⟨hwf, hnl⟩ := h l (by simp)
    unfold wellFormedLine at hwf
    simp only [Bool.and_eq_true, Bool.not_eq_true'] at hwf
    obtain ⟨⟨hnb, _⟩, hcat⟩ := hwf
    rw [List.foldl_cons]
    rcases hfr : findRule l with _ | repl
    · have hcont : (stripOrd l).isEmpty = false :=
        isEmpty_false_of_ne_nil (stripOrd_ne_nil_of_category hcat)
      have hstep : stdStep acc l
          = acc ++ [numberLine (acc.length + 1) (stripOrd l)] := by
        unfold stdStep
        rw [hnb, hfr, hcont]
        simp
      rw [hstep]
      obtain ⟨cs, hlen, hfold, hnlcs⟩ :=
        ih (acc ++ [numberLine (acc.length + 1) (stripOrd l)])
          (fun x hx => h x (by simp [hx]))
      rw [List.length_append, List.length_cons, List.length_nil] at hfold
      refine ⟨stripOrd l :: cs, by rw [List.length_cons, hlen]; rfl, ?_, ?_⟩
      · rw [hfold, numberFrom]
        simp
      · intro c hc
        rcases List.mem_cons.mp hc with hm | hm
        · rw [hm]
          intro hmem
          exact hnl (mem_stripOrd_mem hmem)
        · exact hnlcs c hm
    · have hstep : stdStep acc l = acc ++ [numberLine (acc.length + 1) repl] := by
        unfold stdStep
        rw [hnb, hfr]
        simp
      rw [hstep]
      obtain ⟨r, hrmem, hrrepl⟩ := findRule_repl hfr
      obtain ⟨cs, hlen, hfold, hnlcs⟩ :=
        ih (acc ++ [numberLine (acc.length + 1) repl])
          (fun x hx => h x (by simp [hx]))
      rw [List.length_append, List.length_cons, List.length_nil] at hfold
      refine ⟨repl :: cs, by rw [List.length_cons, hlen]; rfl, ?_, ?_⟩
      · rw [hfold, numberFrom]
        simp
      · intro c hc
        rcases List.mem_cons.mp hc with hm | hm
        · rw [hm]
          exact hrrepl ▸ repl_no_nl r hrmem
        · exact hnlcs c hm

/-- Claim C2 counterexample. The Standardizer is not idempotent: the line
Value: worth standardizes to the canonical quality-for-cost label, which on a
second pass re-matches the earlier Value pricing rule through its word cost and
becomes Value: pricing. -/
theorem C2_not_idempotent_counterexample :
    ¬(standardize_feedback (standardize_feedback (("1. Value: worth").data))
        = standardize_feedback (("1. Value: worth").data)) ∧
    standardize_feedback (("1. Value: worth").data)
        = ("1. Value: quality for cost").data ∧
    standardize_feedback (("1. Value: quality for cost").data)
        = ("1. Value: pricing").data := by
  refine ⟨by decide, by decide, by decide⟩

/-- Claim C2 amended. The Standardizer is idempotent on every input whose
non-blank lines are stable: none of them standardizes to the Value
quality-for-cost label, and any line matching no rule carries no leading
whitespace in its post-ordinal content. All other canonical labels match their
own rule again (or pass through unchanged), and renumbering is reproduced
exactly on the second pass. -/
theorem C2_standardize_idempotent (x : List Char)
    (h : ∀ l ∈ splitNl x, stableLine l) :
    standardize_feedback (standardize_feedback x) = standardize_feedback x := by
  obtain ⟨cs, hfold, hgood⟩ := stdFold_stable (splitNl x) []
    (fun l hl => ⟨h l hl, mem_splitNl_no_nl x l hl⟩)
  rw [List.nil_append] at hfold
  have hx : standardize_feedback x = joinNl (numberFrom 1 cs) := by
    unfold standardize_feedback
    rw [hfold]
    rfl
  rcases hcs : cs with _ | ⟨c0, cs0⟩
  · rw [hcs] at hx
    rw [hx]
    decide
  · rw [hcs] at hx hgood
    rw [hx]
    have hnonl : ∀ l ∈ numberFrom 1 (c0 :: cs0), '\n' ∉ l :=
      numberFrom_no_nl (c0 :: cs0) 1 (fun c hc => (hgood c hc).2)
    unfold standardize_feedback
    rw [splitNl_joinNl _ (numberFrom_ne_nil (by intro he; cases he) 1) hnonl]
    have hfix := stdFold_fixpoint (c0 :: cs0) [] (fun c hc => (hgood c hc).1)
    rw [List.nil_append] at hfix
    rw [show (([] : List (List Char)).length + 1) = 1 from rfl] at hfix
    rw [hfix]

/-- Witness for C2 amended at a concrete stable input: a rule-matched line and
a pass-through line, on which two passes of the Standardizer agree. -/
theorem C2_standardize_idempotent_witness :
    (∀ l ∈ splitNl (("1. Service: slow\nGeneral remark line").data), stableLine l) ∧
      standardize_feedback (standardize_feedback
          (("1. Service: slow\nGeneral remark line").data))
        = standardize_feedback (("1. Service: slow\nGeneral remark line").data) :=
  ⟨by decide, C2_standardize_idempotent _ (by decide)⟩

/-- Claim C6. On a cleaned input whose lines are all well formed (non-blank,
ordinal-led, on-taxonomy), the Standardizer emits exactly one line per input
line and renumbers them contiguously from one. -/
theorem C6_line_count_and_ordinals (x : List Char)
    (hlen : 2 ≤ (splitNl x).length)
    (hlines : ∀ l ∈ splitNl x, wellFormedLine l = true) :
    (splitNl (standardize_feedback x)).length = (splitNl x).length ∧
      (splitNl (standardize_feedback x)).map leadingNat
        = List.range' 1 (splitNl x).length := by
  obtain ⟨cs, hcslen, hfold, hnlcs⟩ := stdFold_wellFormed (splitNl x) []
    (fun l hl => ⟨hlines l hl, mem_splitNl_no_nl x l hl⟩)
  rw [List.nil_append] at hfold
  unfold standardize_feedback
  rw [hfold]
  rw [show (([] : List (List Char)).length + 1) = 1 from rfl]
  have hcsne : cs ≠ [] := by
    intro he
    rw [he] at hcslen
    rw [← hcslen] at hlen
    cases hlen
  rw [splitNl_joinNl _ (numberFrom_ne_nil hcsne 1) (numberFrom_no_nl cs 1 hnlcs)]
  exact ⟨by rw [numberFrom_length, hcslen],
    by rw [numberFrom_map_leadingNat, hcslen]⟩

/-- Witness for C6 at a concrete two-line cleaned input: one rule-matched line
and one pass-through line, renumbered one and two. -/
theorem C6_line_count_and_ordinals_witness :
    (2 ≤ (splitNl (("1. Food Quality: fresh greens\n2. Service: fine").data)).length ∧
      (∀ l ∈ splitNl (("1. Food Quality: fresh greens\n2. Service: fine").data),
        wellFormedLine l = true)) ∧
    (splitNl (standardize_feedback
        (("1. Food Quality: fresh greens\n2. Service: fine").data))).length
      = (splitNl (("1. Food Quality: fresh greens\n2. Service: fine").data)).length ∧
    (splitNl (standardize_feedback
        (("1. Food Quality: fresh greens\n2. Service: fine").data))).map leadingNat
      = List.range' 1
          (splitNl (("1. Food Quality: fresh greens\n2. Service: fine").data)).length :=
  ⟨⟨by decide, by decide⟩, C6_line_count_and_ordinals _ (by decide) (by decide)⟩

end Resto
